import Mathlib

/-!
Verification of the NeuralSEA training script (`train.py`).

The script's numeric core is shallowly embedded over `ℚ`: scalar tensor
values (losses, accuracies, learning rates) become rationals, Python's
`x / y` (which raises `ZeroDivisionError` on `y = 0`) becomes `pydiv`
returning `Except`, and `round(x, 4)` becomes `round4`.  Exceptions are
modelled with `Except String`.  The learning-rate scheduler is provided
by the external torch library (`optim.lr_scheduler.ReduceLROnPlateau`),
whose code is not part of this repository; it is modelled from the spec
(section 4.3).
-/

namespace NeuralSEA

/-- Python's `round(x, 4)`: rounding to 4 decimal digits.  (Tie-breaking at
half-way points is immaterial to every property proved here.) -/
def round4 (q : ℚ) : ℚ := ((round (q * 10000) : ℤ) : ℚ) / 10000

/-- Python division `a / b`, which raises `ZeroDivisionError` when `b = 0`. -/
def pydiv (a b : ℚ) : Except String ℚ :=
  if b = 0 then .error "ZeroDivisionError" else .ok (a / b)

/-- The thresholded prediction `torch.sigmoid(x).round()` for one logit `x`
(`validate`, line 246).  The sigmoid is strictly increasing with
`sigmoid 0 = 1/2`, and torch rounds half to even, so the rounded value is `1`
exactly when the logit is positive; see `predictBit_eq_sigmoid_round`. -/
def predictBit (x : ℚ) : ℚ := if 0 < x then 1 else 0

/-- Per-sample factor `torch.prod(target == torch.sigmoid(output).round(), dim=-1)`
(`validate`, lines 245-247): the product over the label dimension of the 0/1
comparison between a target row `t` and the thresholded prediction of an
output (logit) row `o`. -/
def matchIndicator (t o : List ℚ) : ℚ :=
  ((t.zip o).map (fun p => if p.1 = predictBit p.2 then (1 : ℚ) else 0)).prod

/-- Per-batch accuracy term
`(torch.sum(torch.prod(target == torch.sigmoid(output).round(), dim=-1)).float() / input.shape[0]).item()`
(`validate`, lines 245-247): the number of samples whose thresholded
prediction row equals the target row in every label dimension, divided by the
number of samples `input.shape[0]` in the batch. -/
def batchAccuracy (targets outputs : List (List ℚ)) (nInputs : ℕ) : ℚ :=
  (((targets.zip outputs).map (fun p => matchIndicator p.1 p.2)).sum) / (nInputs : ℚ)

/-- Train step aggregation (`train`, lines 199-225): `epoch_loss` accumulates the
per-batch objective values `loss.item()` in processing order, and the returned
value is `round(epoch_loss / len(train_set_loader), 4)` — Python raises
`ZeroDivisionError` when the loader has zero batches. -/
def train (batchLosses : List ℚ) : Except String ℚ :=
  let epoch_loss := batchLosses.foldl (· + ·) 0
  (pydiv epoch_loss (batchLosses.length : ℚ)).map round4

/-- Validate step aggregation (`validate`, lines 228-254): given each batch's
`(loss.item(), accuracy-term)` pair, `avg_loss` and `avg_acc` accumulate them
and the returned pair is
`(round(avg_loss / len(valid_set_loader), 4), round(avg_acc / len(valid_set_loader), 4))`,
with Python's `ZeroDivisionError` on an empty loader. -/
def validate (batchResults : List (ℚ × ℚ)) : Except String (ℚ × ℚ) :=
  let avg_loss := (batchResults.map Prod.fst).foldl (· + ·) 0
  let avg_acc := (batchResults.map Prod.snd).foldl (· + ·) 0
  match pydiv avg_loss (batchResults.length : ℚ) with
  | .error e => .error e
  | .ok vl =>
    match pydiv avg_acc (batchResults.length : ℚ) with
    | .error e => .error e
    | .ok va => .ok (round4 vl, round4 va)

/-! ### Arithmetic helper lemmas -/

lemma foldl_add_eq_sum (l : List ℚ) : l.foldl (· + ·) 0 = l.sum := by
  simp [List.sum, List.foldl_eq_foldr]

lemma prod01 (l : List ℚ) (h : ∀ x ∈ l, x = 0 ∨ x = 1) :
    (l.prod = 0 ∨ l.prod = 1) ∧ (l.prod = 1 ↔ ∀ x ∈ l, x = 1) := by
  induction l with
  | nil => simp
  | cons a t ih =>
    have ha := h a (List.mem_cons_self a t)
    obtain ⟨ih1, ih2⟩ := ih (fun x hx => h x (List.mem_cons_of_mem a hx))
    rcases ha with ha | ha
    · subst ha
      refine ⟨Or.inl (by simp), ?_⟩
      simp only [List.prod_cons, zero_mul]
      constructor
      · intro h0; exact absurd h0.symm (by norm_num)
      · intro hall
        have := hall 0 (List.mem_cons_self 0 t)
        norm_num at this
    · subst ha
      simp only [List.prod_cons, one_mul]
      refine ⟨ih1, ?_⟩
      rw [ih2]
      constructor
      · intro hall x hx
        rcases List.mem_cons.mp hx with hx | hx
        · exact hx.symm ▸ rfl
        · exact hall x hx
      · intro hall x hx
        exact hall x (List.mem_cons_of_mem 1 hx)

lemma sum01 (l : List ℚ) (h : ∀ x ∈ l, x = 0 ∨ x = 1) :
    l.sum = ((l.countP (fun x => decide (x = 1)) : ℕ) : ℚ) ∧
    0 ≤ l.sum ∧ l.sum ≤ (l.length : ℚ) ∧
    (l.sum = (l.length : ℚ) ↔ ∀ x ∈ l, x = 1) := by
  induction l with
  | nil => simp
  | cons a t ih =>
    have ha := h a (List.mem_cons_self a t)
    obtain ⟨ih1, ih2, ih3, ih4⟩ := ih (fun x hx => h x (List.mem_cons_of_mem a hx))
    have hlen : ((a :: t).length : ℚ) = (t.length : ℚ) + 1 := by
      push_cast [List.length_cons]; ring
    have hcount : ∀ b : Bool,
        (a :: t).countP (fun x => decide (x = 1)) =
          t.countP (fun x => decide (x = 1)) + (if decide (a = 1) then 1 else 0) :=
      fun _ => List.countP_cons _ a t
    rcases ha with ha | ha
    · subst ha
      have hc : (0 : ℚ) ≠ 1 := by norm_num
      refine ⟨?_, ?_, ?_, ?_⟩
      · rw [List.sum_cons, zero_add, ih1, hcount true]
        simp [hc]
      · rw [List.sum_cons, zero_add]; exact ih2
      · rw [List.sum_cons, zero_add, hlen]; linarith
      · rw [List.sum_cons, zero_add, hlen]
        constructor
        · intro hsum; exfalso; linarith
        · intro hall
          have := hall 0 (List.mem_cons_self 0 t)
          exact absurd this hc
    · subst ha
      refine ⟨?_, ?_, ?_, ?_⟩
      · rw [List.sum_cons, ih1, hcount true]
        simp [add_comm]
      · rw [List.sum_cons]; linarith
      · rw [List.sum_cons, hlen]; linarith
      · rw [List.sum_cons, hlen]
        constructor
        · intro hsum x hx
          rcases List.mem_cons.mp hx with hx | hx
          · exact hx.symm ▸ rfl
          · exact (ih4.mp (by linarith)) x hx
        · intro hall
          have : t.sum = (t.length : ℚ) :=
            ih4.mpr (fun x hx => hall x (List.mem_cons_of_mem 1 hx))
          linarith

lemma matchIndicator_mem (t o : List ℚ) :
    matchIndicator t o = 0 ∨ matchIndicator t o = 1 := by
  refine (prod01 _ ?_).1
  intro x hx
  rcases List.mem_map.mp hx with ⟨p, _, hp⟩
  by_cases hc : p.1 = predictBit p.2 <;> simp [hc] at hp <;> [right; left] <;>
    exact hp.symm

lemma matchIndicator_eq_one_iff (t o : List ℚ) :
    matchIndicator t o = 1 ↔ ∀ q ∈ t.zip o, q.1 = predictBit q.2 := by
  have h01 : ∀ x ∈ (t.zip o).map (fun p => if p.1 = predictBit p.2 then (1 : ℚ) else 0),
      x = 0 ∨ x = 1 := by
    intro x hx
    rcases List.mem_map.mp hx with ⟨p, _, hp⟩
    by_cases hc : p.1 = predictBit p.2 <;> simp [hc] at hp <;> [right; left] <;>
      exact hp.symm
  rw [matchIndicator, (prod01 _ h01).2]
  constructor
  · intro hall q hq
    have := hall (if q.1 = predictBit q.2 then (1 : ℚ) else 0)
      (List.mem_map.mpr ⟨q, hq, rfl⟩)
    by_contra hne
    rw [if_neg hne] at this
    norm_num at this
  · intro hall x hx
    rcases List.mem_map.mp hx with ⟨p, hp, hpe⟩
    rw [← hpe, if_pos (hall p hp)]

/-- The sigmoid `1 / (1 + exp (-x))` exceeds `1/2` exactly when `0 < x`; at
`x = 0` it equals `1/2`, which torch's round-half-to-even sends to `0`.  This
justifies the embedding `predictBit` of `torch.sigmoid(output).round()`. -/
theorem predictBit_eq_sigmoid_round (x : ℚ) :
    predictBit x = if 1 / 2 < 1 / (1 + Real.exp (-(x : ℝ))) then 1 else 0 := by
  have hpos : (0 : ℝ) < 1 + Real.exp (-(x : ℝ)) := by positivity
  have hiff : 1 / 2 < 1 / (1 + Real.exp (-(x : ℝ))) ↔ 0 < x := by
    rw [div_lt_div_iff₀ (by norm_num) hpos]
    constructor
    · intro h
      have hexp : Real.exp (-(x : ℝ)) < 1 := by linarith
      have := Real.exp_lt_one_iff.mp hexp
      have hx : (0 : ℝ) < (x : ℝ) := by linarith
      exact_mod_cast hx
    · intro h
      have hx : (0 : ℝ) < (x : ℝ) := by exact_mod_cast h
      have : Real.exp (-(x : ℝ)) < 1 := Real.exp_lt_one_iff.mpr (by linarith)
      linarith
  rw [predictBit]
  by_cases hx : 0 < x
  · rw [if_pos hx, if_pos (hiff.mpr hx)]
  · rw [if_neg hx, if_neg (fun hc => hx (hiff.mp hc))]

/-- C1: for every validation batch with at least one sample, the per-batch
accuracy equals the fraction of samples whose binary (sigmoid-thresholded)
prediction vector matches the target vector in every label dimension; it lies
in `[0, 1]`, and equals `1` exactly when every sample in the batch matches its
target in all label dimensions. -/
theorem valid_accuracy_exact_match (targets outputs : List (List ℚ)) (n : ℕ)
    (hn : 0 < n) (ht : targets.length = n) (ho : outputs.length = n) :
    batchAccuracy targets outputs n =
      (((targets.zip outputs).countP
        (fun p => decide (matchIndicator p.1 p.2 = 1)) : ℕ) : ℚ) / (n : ℚ) ∧
    0 ≤ batchAccuracy targets outputs n ∧
    batchAccuracy targets outputs n ≤ 1 ∧
    (batchAccuracy targets outputs n = 1 ↔
      ∀ p ∈ targets.zip outputs, ∀ q ∈ p.1.zip p.2, q.1 = predictBit q.2) := by
  have hzl : (targets.zip outputs).length = n := by
    rw [List.length_zip, ht, ho, min_self]
  set l := (targets.zip outputs).map (fun p => matchIndicator p.1 p.2) with hl
  have h01 : ∀ x ∈ l, x = 0 ∨ x = 1 := by
    intro x hx
    rcases List.mem_map.mp hx with ⟨p, _, hp⟩
    exact hp ▸ matchIndicator_mem p.1 p.2
  obtain ⟨hc, hge, hle, hiff⟩ := sum01 l h01
  have hll : (l.length : ℚ) = (n : ℚ) := by
    rw [hl, List.length_map, hzl]
  have hnq : (0 : ℚ) < (n : ℚ) := by exact_mod_cast hn
  have hacc : batchAccuracy targets outputs n = l.sum / (n : ℚ) := rfl
  refine ⟨?_, ?_, ?_, ?_⟩
  · rw [hacc, hc, hl, List.countP_map]
    rfl
  · rw [hacc]
    exact div_nonneg hge (le_of_lt hnq)
  · rw [hacc, div_le_one hnq, ← hll]
    exact hle
  · rw [hacc, div_eq_one_iff_eq (ne_of_gt hnq), ← hll, hiff]
    constructor
    · intro hall p hp q hq
      have := hall (matchIndicator p.1 p.2) (List.mem_map.mpr ⟨p, hp, rfl⟩)
      exact (matchIndicator_eq_one_iff p.1 p.2).mp this q hq
    · intro hall x hx
      rcases List.mem_map.mp hx with ⟨p, hp, hpe⟩
      rw [← hpe]
      exact (matchIndicator_eq_one_iff p.1 p.2).mpr (hall p hp)

/-- Witness for C1 on a concrete 2-sample batch, one sample matching and one
not: the accuracy is `1/2`. -/
theorem valid_accuracy_exact_match_witness :
    (0 < 2 ∧ ([[ (1:ℚ), 0], [1, 1]]).length = 2 ∧ ([[ (2:ℚ), -3], [5, -1]]).length = 2) ∧
    batchAccuracy [[(1:ℚ), 0], [1, 1]] [[(2:ℚ), -3], [5, -1]] 2 = 1 / 2 := by
  have hm1 : matchIndicator [(1:ℚ), 0] [(2:ℚ), -3] = 1 := by
    norm_num [matchIndicator, predictBit, List.zip_cons_cons, List.zip_nil_left,
      List.zip_nil_right]
  have hm2 : matchIndicator [(1:ℚ), 1] [(5:ℚ), -1] = 0 := by
    norm_num [matchIndicator, predictBit, List.zip_cons_cons, List.zip_nil_left,
      List.zip_nil_right]
  refine ⟨⟨by decide, rfl, rfl⟩, ?_⟩
  have h := valid_accuracy_exact_match [[(1:ℚ), 0], [1, 1]] [[(2:ℚ), -3], [5, -1]] 2
    (by decide) rfl rfl
  rw [h.1]
  have hz : ([[(1:ℚ), 0], [1, 1]].zip [[(2:ℚ), -3], [5, -1]]) =
      [([(1:ℚ), 0], [(2:ℚ), -3]), ([(1:ℚ), 1], [(5:ℚ), -1])] := rfl
  rw [hz]
  simp only [List.countP_cons, List.countP_nil, hm1, hm2]
  norm_num

/-- C2: for every epoch with a non-empty training batch source, the train step
returns the arithmetic mean of the per-batch objective values rounded to 4
decimal digits, and this value is invariant under any permutation of the
processing order of the batches. -/
theorem train_mean_perm_invariant (ls ls' : List ℚ) (h : ls ≠ []) (hp : ls.Perm ls') :
    train ls = .ok (round4 (ls.sum / (ls.length : ℚ))) ∧ train ls' = train ls := by
  have hlen : (ls.length : ℚ) ≠ 0 := by
    simpa using (fun hc => h (List.length_eq_zero.mp hc))
  constructor
  · rw [train, foldl_add_eq_sum, pydiv, if_neg hlen]
    rfl
  · rw [train, train, foldl_add_eq_sum, foldl_add_eq_sum, hp.sum_eq, hp.length_eq]

/-- Witness for C2: the concrete epoch `[1, 2]` and its reversal. -/
theorem train_mean_perm_invariant_witness :
    train [(1 : ℚ), 2] = .ok (round4 (([(1 : ℚ), 2].sum) / (([(1 : ℚ), 2].length : ℕ) : ℚ))) ∧
    train [(2 : ℚ), 1] = train [(1 : ℚ), 2] := by
  have h := train_mean_perm_invariant [(1 : ℚ), 2] [(2 : ℚ), 1]
    (List.cons_ne_nil 1 [2]) (List.Perm.swap 2 1 [])
  exact ⟨h.1, h.2⟩

/-- C10: on a loader yielding zero batches, both the train step and the
validate step divide the accumulated sum by the batch count with no guard and
fail with `ZeroDivisionError`; with at least one batch they return the rounded
means. -/
theorem empty_loader_div_by_zero :
    train [] = .error "ZeroDivisionError" ∧
    validate [] = .error "ZeroDivisionError" ∧
    (∀ ls : List ℚ, ls ≠ [] → train ls = .ok (round4 (ls.sum / (ls.length : ℚ)))) ∧
    (∀ bs : List (ℚ × ℚ), bs ≠ [] →
      validate bs = .ok (round4 ((bs.map Prod.fst).sum / (bs.length : ℚ)),
                         round4 ((bs.map Prod.snd).sum / (bs.length : ℚ)))) := by
  refine ⟨?_, ?_, ?_, ?_⟩
  · rw [train]
    norm_num [pydiv]
    rfl
  · rw [validate]
    norm_num [pydiv]
  · intro ls hls
    exact (train_mean_perm_invariant ls ls hls (List.Perm.refl ls)).1
  · intro bs hbs
    have hlen : (bs.length : ℚ) ≠ 0 := by
      simpa using (fun hc => hbs (List.length_eq_zero.mp hc))
    rw [validate, foldl_add_eq_sum, foldl_add_eq_sum]
    simp only [pydiv, if_neg hlen]

/-- Witness for C10: a singleton loader with loss `3` and accuracy term `1`. -/
theorem empty_loader_div_by_zero_witness :
    validate [((3 : ℚ), 1)] =
      .ok (round4 (([((3 : ℚ), 1)].map Prod.fst).sum / 1),
           round4 (([((3 : ℚ), 1)].map Prod.snd).sum / 1)) := by
  have h := empty_loader_div_by_zero.2.2.2 [((3 : ℚ), 1)] (List.cons_ne_nil _ [])
  simpa using h

/-! ### Plateau scheduler

The scheduler object created by `get_lr_scheduler` (lines 189-196) is torch's
`ReduceLROnPlateau`, whose implementation is external to this repository.  Its
state and per-epoch transition (invoked by `lr_scheduler.step(valid_loss)` at
line 298) are modelled from the spec, section 4.3. -/

/-- Scheduler state record from the spec: best loss seen so far (`none` is the
initial `+infinity`), the wait (epochs-since-improvement) counter, and the
current learning rate. -/
structure SchedState where
  best : Option ℚ
  wait : ℕ
  lr : ℚ
deriving DecidableEq, Repr

/-- Modelled from the spec: "If L is strictly better (lower) than best loss"
— comparison of the new validation loss against the best loss so far, where
`none` plays `+infinity` and the negligible threshold is taken as zero. -/
def isBetter (L : ℚ) (best : Option ℚ) : Bool :=
  match best with
  | none => true
  | some b => decide (L < b)

/-- Modelled from the spec (section 4.3, the transition of torch's
`ReduceLROnPlateau`, which is not part of this repository): on improvement set
`best := L` and reset the wait counter; otherwise increment the wait counter,
and when it exceeds `patience` multiply the current rate by the fixed factor
`0.1` and reset the counter. -/
def schedStep (patience : ℕ) (s : SchedState) (L : ℚ) : SchedState :=
  if isBetter L s.best then { s with best := some L, wait := 0 }
  else if patience < s.wait + 1 then { s with wait := 0, lr := s.lr * (1 / 10) }
  else { s with wait := s.wait + 1 }

/-- Modelled from the spec: initial scheduler state — `best = +infinity`,
`wait = 0`, rate as configured. -/
def initSched (lr : ℚ) : SchedState := ⟨none, 0, lr⟩

/-- The scheduler state after feeding the per-epoch validation losses, in
order, to `lr_scheduler.step` (line 298). -/
def runSched (patience : ℕ) (lr0 : ℚ) (losses : List ℚ) : SchedState :=
  losses.foldl (schedStep patience) (initSched lr0)

lemma sched_decreasing_aux (p : ℕ) :
    ∀ (losses : List ℚ) (s : SchedState),
      List.Chain' (fun a b => b < a) (s.best.toList ++ losses) →
      (losses.foldl (schedStep p) s).lr = s.lr ∧
      (losses.foldl (schedStep p) s).wait = (if losses = [] then s.wait else 0) := by
  intro losses
  induction losses with
  | nil => intro s _; simp
  | cons L rest ih =>
    intro s hchain
    have hbet : isBetter L s.best = true := by
      cases hb : s.best with
      | none => rfl
      | some b =>
        rw [hb] at hchain
        have : L < b := (List.chain'_cons.mp hchain).1
        simpa [isBetter] using this
    have hstep : schedStep p s L = { s with best := some L, wait := 0 } := by
      rw [schedStep, if_pos hbet]
    have htail : List.Chain' (fun a b => b < a)
        (({ s with best := some L, wait := 0 } : SchedState).best.toList ++ rest) := by
      cases hb : s.best with
      | none =>
        rw [hb] at hchain
        simpa using hchain
      | some b =>
        rw [hb] at hchain
        simpa using (List.chain'_cons.mp (by simpa using hchain)).2
    have h := ih ({ s with best := some L, wait := 0 }) htail
    rw [List.foldl_cons, hstep]
    refine ⟨h.1, ?_⟩
    rw [h.2]
    by_cases hr : rest = [] <;> simp [hr]

/-- C3: on a strictly decreasing validation-loss sequence the plateau
scheduler never changes the learning rate — every epoch improves on the best
loss, the wait counter ends reset at `0`, and no reduction is triggered. -/
theorem sched_strict_decrease_keeps_lr (p : ℕ) (lr0 : ℚ) (losses : List ℚ)
    (h : List.Chain' (fun a b => b < a) losses) :
    (runSched p lr0 losses).lr = lr0 ∧ (runSched p lr0 losses).wait = 0 := by
  have h2 := sched_decreasing_aux p losses (initSched lr0) (by simpa [initSched] using h)
  refine ⟨h2.1, ?_⟩
  show (List.foldl (schedStep p) (initSched lr0) losses).wait = 0
  rw [h2.2]
  by_cases hr : losses = [] <;> simp [hr, initSched]

/-- Witness for C3: three strictly decreasing losses under patience `0` leave
the rate at `1`. -/
theorem sched_strict_decrease_keeps_lr_witness :
    (runSched 0 1 [(3 : ℚ), 2, 1]).lr = 1 ∧ (runSched 0 1 [(3 : ℚ), 2, 1]).wait = 0 :=
  sched_strict_decrease_keeps_lr 0 1 [(3 : ℚ), 2, 1]
    (by refine List.chain'_cons.mpr ⟨by norm_num, List.chain'_cons.mpr ⟨by norm_num, ?_⟩⟩
        exact List.chain'_singleton 1)

/-- C4: on a non-improving epoch the scheduler increments its wait counter,
and when the counter exceeds the patience it multiplies the rate by `0.1` and
resets the counter; in the spec's scenario — patience `2`, losses
`[1.0, 0.9, 0.95, 0.96, 0.97]` — the rate is unchanged through epoch 4 and is
reduced exactly once, on epoch 5, with the counter reset. -/
theorem sched_plateau_reduces (p : ℕ) (s : SchedState) (L : ℚ)
    (h : isBetter L s.best = false) (lr0 : ℚ) :
    ((p < s.wait + 1 → schedStep p s L = { s with wait := 0, lr := s.lr * (1 / 10) }) ∧
     (¬ p < s.wait + 1 → schedStep p s L = { s with wait := s.wait + 1 })) ∧
    (runSched 2 lr0 ([1, 9/10, 19/20, 24/25, 97/100].take 4)).lr = lr0 ∧
    (runSched 2 lr0 [1, 9/10, 19/20, 24/25, 97/100]).lr = lr0 * (1 / 10) ∧
    (runSched 2 lr0 [1, 9/10, 19/20, 24/25, 97/100]).wait = 0 := by
  have hb1 : isBetter 1 none = true := rfl
  have hb2 : isBetter (9/10) (some 1) = true := by norm_num [isBetter]
  have hb3 : isBetter (19/20) (some (9/10)) = false := by norm_num [isBetter]
  have hb4 : isBetter (24/25) (some (9/10)) = false := by norm_num [isBetter]
  have hb5 : isBetter (97/100) (some (9/10)) = false := by norm_num [isBetter]
  constructor
  · constructor
    · intro hp
      rw [schedStep, if_neg (by rw [h]; exact Bool.false_ne_true), if_pos hp]
    · intro hp
      rw [schedStep, if_neg (by rw [h]; exact Bool.false_ne_true), if_neg hp]
  · refine ⟨?_, ?_, ?_⟩ <;>
      simp [runSched, initSched, schedStep, hb1, hb2, hb3, hb4, hb5]

/-- Witness for C4: a concrete non-improving state under patience `0`
triggers the reduction branch. -/
theorem sched_plateau_reduces_witness :
    schedStep 0 ⟨some 1, 0, 1⟩ 2 = ⟨some 1, 0, 1 * (1 / 10)⟩ ∧
    (runSched 2 1 [1, 9/10, 19/20, 24/25, 97/100]).lr = 1 * (1 / 10) := by
  have h := sched_plateau_reduces 0 ⟨some 1, 0, 1⟩ 2
    (by norm_num [isBetter]) 1
  exact ⟨h.1.1 (by norm_num), h.2.2.1⟩

lemma schedStep_lr_le (p : ℕ) (s : SchedState) (L : ℚ) (h : 0 ≤ s.lr) :
    (schedStep p s L).lr ≤ s.lr ∧ 0 ≤ (schedStep p s L).lr := by
  rw [schedStep]
  by_cases h1 : isBetter L s.best
  · rw [if_pos h1]; exact ⟨le_refl _, h⟩
  · rw [if_neg h1]
    by_cases h2 : p < s.wait + 1
    · rw [if_pos h2]
      refine ⟨?_, ?_⟩
      · calc s.lr * (1 / 10) ≤ s.lr * 1 := by
              apply mul_le_mul_of_nonneg_left (by norm_num) h
          _ = s.lr := mul_one s.lr
      · exact mul_nonneg h (by norm_num)
    · rw [if_neg h2]; exact ⟨le_refl _, h⟩

lemma foldl_schedStep_lr_le (p : ℕ) :
    ∀ (losses : List ℚ) (s : SchedState), 0 ≤ s.lr →
      (losses.foldl (schedStep p) s).lr ≤ s.lr ∧ 0 ≤ (losses.foldl (schedStep p) s).lr := by
  intro losses
  induction losses with
  | nil => intro s h; exact ⟨le_refl _, h⟩
  | cons L rest ih =>
    intro s h
    obtain ⟨h1, h2⟩ := schedStep_lr_le p s L h
    obtain ⟨h3, h4⟩ := ih (schedStep p s L) h2
    exact ⟨by rw [List.foldl_cons]; exact le_trans h3 h1, by rw [List.foldl_cons]; exact h4⟩

/-- C5: the learning rate is monotonically non-increasing over the lifetime of
training — for any epochs `i ≤ j`, the rate after the scheduler has consumed
the first `j` validation losses is at most the rate after the first `i`. -/
theorem lr_monotone_nonincreasing (p : ℕ) (lr0 : ℚ) (h : 0 ≤ lr0)
    (losses : List ℚ) (i j : ℕ) (hij : i ≤ j) :
    (runSched p lr0 (losses.take j)).lr ≤ (runSched p lr0 (losses.take i)).lr := by
  have hsplit : losses.take j = losses.take i ++ (losses.drop i).take (j - i) := by
    rw [← List.take_add]
    congr 1
    omega
  rw [runSched, runSched, hsplit, List.foldl_append]
  have hbase : 0 ≤ (List.foldl (schedStep p) (initSched lr0) (losses.take i)).lr :=
    (foldl_schedStep_lr_le p (losses.take i) (initSched lr0) h).2
  exact (foldl_schedStep_lr_le p ((losses.drop i).take (j - i)) _ hbase).1

/-- Witness for C5: with patience `0` and flat losses `[1, 1]`, the rate after
two epochs is at most the rate after one. -/
theorem lr_monotone_nonincreasing_witness :
    (0 : ℚ) ≤ 1 ∧ (1 : ℕ) ≤ 2 ∧
    (runSched 0 1 ([(1 : ℚ), 1].take 2)).lr ≤ (runSched 0 1 ([(1 : ℚ), 1].take 1)).lr :=
  ⟨by norm_num, by norm_num,
    lr_monotone_nonincreasing 0 1 (by norm_num) [(1 : ℚ), 1] 1 2 (by norm_num)⟩

/-! ### Checkpoint store -/

/-- Decimal digits of `n`, least significant first, as Python's integer
formatting extracts them; structural in a fuel argument so that it computes by
reduction.  `pyDigits_eq_digits` identifies it with `Nat.digits 10`. -/
def pyDigits : ℕ → ℕ → List ℕ
  | 0, _ => []
  | fuel + 1, n => if n = 0 then [] else n % 10 :: pyDigits fuel (n / 10)

lemma pyDigits_eq_digits : ∀ (fuel n : ℕ), n ≤ fuel → pyDigits fuel n = Nat.digits 10 n := by
  intro fuel
  induction fuel with
  | zero =>
    intro n hn
    interval_cases n
    simp [pyDigits]
  | succ f ih =>
    intro n hn
    by_cases h0 : n = 0
    · subst h0; simp [pyDigits]
    · rw [pyDigits, if_neg h0, Nat.digits_def' (by norm_num) (Nat.pos_of_ne_zero h0)]
      have hdiv : n / 10 ≤ f := by
        have := Nat.div_lt_self (Nat.pos_of_ne_zero h0) (by norm_num : 1 < 10)
        omega
      rw [ih (n / 10) hdiv]

/-- Decimal rendering of a natural number, as Python's f-string `{epoch}`
interpolation produces it (most significant digit first). -/
def fstrOfNat (n : ℕ) : String :=
  if n = 0 then "0" else ⟨((pyDigits n n).reverse.map Nat.digitChar)⟩

lemma digitChar_inj_lt : ∀ a < 10, ∀ b < 10, Nat.digitChar a = Nat.digitChar b → a = b := by
  decide

lemma digitChar_ne_dash : ∀ a < 10, Nat.digitChar a ≠ '-' := by
  decide

lemma map_digitChar_inj :
    ∀ (l1 l2 : List ℕ), (∀ x ∈ l1, x < 10) → (∀ x ∈ l2, x < 10) →
      l1.map Nat.digitChar = l2.map Nat.digitChar → l1 = l2 := by
  intro l1
  induction l1 with
  | nil =>
    intro l2 _ _ h
    cases l2 with
    | nil => rfl
    | cons b t2 => simp at h
  | cons a t1 ih =>
    intro l2 h1 h2 h
    cases l2 with
    | nil => simp at h
    | cons b t2 =>
      simp only [List.map_cons, List.cons.injEq] at h
      have ha := h1 a (List.mem_cons_self a t1)
      have hb := h2 b (List.mem_cons_self b t2)
      have hab := digitChar_inj_lt a ha b hb h.1
      have ht := ih t2 (fun x hx => h1 x (List.mem_cons_of_mem a hx))
        (fun x hx => h2 x (List.mem_cons_of_mem b hx)) h.2
      rw [hab, ht]

lemma fstrOfNat_data_ne_dash (n : ℕ) : ∀ c ∈ (fstrOfNat n).data, c ≠ '-' := by
  intro c hc
  rw [fstrOfNat] at hc
  by_cases h0 : n = 0
  · rw [if_pos h0] at hc
    have hz : ("0" : String).data = ['0'] := rfl
    rw [hz] at hc
    have : c = '0' := by simpa using hc
    rw [this]; decide
  · rw [if_neg h0] at hc
    have hmk : (⟨(pyDigits n n).reverse.map Nat.digitChar⟩ : String).data =
        (pyDigits n n).reverse.map Nat.digitChar := rfl
    rw [hmk] at hc
    rcases List.mem_map.mp hc with ⟨d, hd, hde⟩
    have hd10 : d < 10 :=
      Nat.digits_lt_base (by norm_num)
        ((pyDigits_eq_digits n n (le_refl n)) ▸ List.mem_reverse.mp hd)
    rw [← hde]
    exact digitChar_ne_dash d hd10

lemma digits_rev_map_ne_zero_char {m : ℕ} (hm : m ≠ 0) :
    (Nat.digits 10 m).reverse.map Nat.digitChar ≠ ['0'] := by
  intro h
  cases hrev : (Nat.digits 10 m).reverse with
  | nil => rw [hrev] at h; simp at h
  | cons d t =>
    rw [hrev] at h
    simp only [List.map_cons, List.cons.injEq] at h
    have ht : t = [] := by simpa using h.2
    have hd : d ∈ Nat.digits 10 m :=
      List.mem_reverse.mp (hrev ▸ List.mem_cons_self d t)
    have hd10 : d < 10 := Nat.digits_lt_base (by norm_num) hd
    have hdz : d = 0 := digitChar_inj_lt d hd10 0 (by norm_num) (by simpa using h.1)
    have hdig : Nat.digits 10 m = [d] := by
      have h2 := congrArg List.reverse hrev
      simpa [ht] using h2
    have hm0 : m = 0 := by
      have h1 := Nat.ofDigits_digits 10 m
      rw [hdig, hdz] at h1
      simpa [Nat.ofDigits] using h1.symm
    exact hm hm0

lemma fstrOfNat_inj : Function.Injective fstrOfNat := by
  intro n m h
  rw [fstrOfNat, fstrOfNat] at h
  by_cases hn : n = 0 <;> by_cases hm : m = 0
  · rw [hn, hm]
  · exfalso
    rw [if_pos hn, if_neg hm] at h
    have hdata : (['0'] : List Char) =
        ((pyDigits m m).reverse.map Nat.digitChar) := congrArg String.data h
    rw [pyDigits_eq_digits m m (le_refl m)] at hdata
    exact digits_rev_map_ne_zero_char hm hdata.symm
  · exfalso
    rw [if_neg hn, if_pos hm] at h
    have hdata : ((pyDigits n n).reverse.map Nat.digitChar) =
        (['0'] : List Char) := congrArg String.data h
    rw [pyDigits_eq_digits n n (le_refl n)] at hdata
    exact digits_rev_map_ne_zero_char hn hdata
  · rw [if_neg hn, if_neg hm] at h
    have hdata : ((pyDigits n n).reverse.map Nat.digitChar) =
        ((pyDigits m m).reverse.map Nat.digitChar) := congrArg String.data h
    rw [pyDigits_eq_digits n n (le_refl n), pyDigits_eq_digits m m (le_refl m)] at hdata
    have hrev := map_digitChar_inj (Nat.digits 10 n).reverse (Nat.digits 10 m).reverse
      (fun x hx => Nat.digits_lt_base (by norm_num) (List.mem_reverse.mp hx))
      (fun x hx => Nat.digits_lt_base (by norm_num) (List.mem_reverse.mp hx)) hdata
    have hdg : Nat.digits 10 n = Nat.digits 10 m := by
      have h2 := congrArg List.reverse hrev
      simpa using h2
    exact Nat.digits.injective 10 hdg

lemma append_sep_inj {α : Type} (sep : α) :
    ∀ (l1 l2 r1 r2 : List α), sep ∉ l1 → sep ∉ l2 →
      l1 ++ sep :: r1 = l2 ++ sep :: r2 → l1 = l2 ∧ r1 = r2 := by
  intro l1
  induction l1 with
  | nil =>
    intro l2 r1 r2 _ h2 h
    cases l2 with
    | nil => simpa using h
    | cons c t =>
      exfalso
      simp only [List.nil_append, List.cons_append, List.cons.injEq] at h
      exact h2 (h.1 ▸ List.mem_cons_self c t)
  | cons c t ih =>
    intro l2 r1 r2 h1 h2 h
    cases l2 with
    | nil =>
      exfalso
      simp only [List.nil_append, List.cons_append, List.cons.injEq] at h
      exact h1 (h.1 ▸ List.mem_cons_self c t)
    | cons c' t' =>
      simp only [List.cons_append, List.cons.injEq] at h
      have := ih t' r1 r2 (fun hx => h1 (List.mem_cons_of_mem c hx))
        (fun hx => h2 (h.1 ▸ List.mem_cons_of_mem c' hx)) h.2
      exact ⟨by rw [h.1, this.1], this.2⟩

/-- The artifact path built by `checkpoint` (lines 263-264):
`os.path.join(pth_dir, f'neuralsea-epoch-{epoch}-loss-{valid_loss}.pth')`. -/
def checkpointPath (pth_dir : String) (epoch : ℕ) (valid_loss : ℚ) : String :=
  pth_dir ++ "/" ++ "neuralsea-epoch-" ++ fstrOfNat epoch ++ "-loss-" ++
    toString valid_loss ++ ".pth"

lemma checkpointPath_epoch_inj (dir : String) (e1 e2 : ℕ) (l1 l2 : ℚ)
    (h : checkpointPath dir e1 l1 = checkpointPath dir e2 l2) : e1 = e2 := by
  have hdata := congrArg String.data h
  rw [checkpointPath, checkpointPath] at hdata
  simp only [String.data_append, List.append_assoc] at hdata
  have h1 := List.append_cancel_left hdata
  have h2 := List.append_cancel_left h1
  have h3 := List.append_cancel_left h2
  have hsep : ∀ (q : ℚ),
      ("-loss-".data ++ ((toString q).data ++ ".pth".data)) =
        '-' :: ("loss-".data ++ ((toString q).data ++ ".pth".data)) := by
    intro q; rfl
  rw [hsep l1, hsep l2] at h3
  have := append_sep_inj '-' (fstrOfNat e1).data (fstrOfNat e2).data _ _
    (fun hc => (fstrOfNat_data_ne_dash e1 '-' hc) rfl)
    (fun hc => (fstrOfNat_data_ne_dash e2 '-' hc) rfl) h3
  have hstr : fstrOfNat e1 = fstrOfNat e2 := by
    cases hfe : fstrOfNat e1 with
    | mk d1 =>
      cases hfe2 : fstrOfNat e2 with
      | mk d2 =>
        have := this.1
        rw [hfe, hfe2] at this
        exact congrArg String.mk this
  exact fstrOfNat_inj hstr

/-- Directory handling of `checkpoint` (lines 260-261):
`if not os.path.exists(pth_dir): os.mkdir(pth_dir)`.  The two booleans are the
observations of the directory's existence at the time of the `os.path.exists`
check and at the time of the `os.mkdir` call; `os.mkdir` raises
`FileExistsError` when the directory exists at call time. -/
def ensure_pth_dir (existsAtCheck existsAtMkdir : Bool) : Except String Unit :=
  if existsAtCheck then .ok ()
  else if existsAtMkdir then .error "FileExistsError" else .ok ()

/-- C7 counterexample: a directory created concurrently between the existence
check and the creation attempt IS an error — `os.mkdir` raises
`FileExistsError`, so the check-then-create sequence is not race-tolerant. -/
theorem ensure_pth_dir_race_error :
    ensure_pth_dir false true = .error "FileExistsError" := rfl

/-- C7 (amended): directory creation is sequentially idempotent — when the
directory's existence does not change between the check and the creation
attempt (no concurrent interference), a pre-existing directory is not an
error, and neither is creating a missing one. -/
theorem ensure_pth_dir_sequential_idempotent (b : Bool) :
    ensure_pth_dir b b = .ok () := by
  cases b <;> rfl

/-! ### Orchestrator (`__main__`, lines 269-320)

The model, the objective, the optimizer and the data-loader shuffling are
external collaborators (`NeuralSEA()`, `nn.BCEWithLogitsLoss`, `optim.Adam`,
`DataLoader`); they appear as opaque function parameters in a `Collab`
record.  The global RNG state seeded by `seed(args.seed)` (numpy and torch)
is a single abstract state `Rng`. -/

/-- Abstract global random-generator state (numpy + torch). -/
abbrev Rng : Type := ℕ

/-- The `seed` function (lines 83-91): `np.random.seed(s); torch.manual_seed(s)`
resets the global generator state to a function of `s` alone, discarding
whatever ambient state preceded it. -/
def seed (s : ℕ) (_ambient : Rng) : Rng := s

/-- The `setup_device` function (lines 125-135): raises when CUDA is requested
but unavailable, otherwise returns the selected device. -/
def setup_device (use_cuda cuda_available : Bool) : Except String String :=
  if use_cuda && !cuda_available then
    .error "No GPU found, please run without: --cuda"
  else .ok (if use_cuda then "cuda" else "cpu")

/-- One batch yielded by a `DataLoader`: the raw input rows and the target
rows (`data[0]`, `data[1]`). -/
structure Batch (α : Type) where
  inputs : List α
  targets : List (List ℚ)

/-- External collaborators of the training loop: CUDA availability, network
initialization (`NeuralSEA()`, consuming RNG state), the loader's per-epoch
shuffle (consuming RNG state), the network forward pass, the scalar objective
`BCEWithLogitsLoss(output, target).item()`, and the backward/optimizer update
of `loss.backward(); optimizer.step()` at the current learning rate. -/
structure Collab (Net α : Type) where
  cuda_available : Bool
  netInit : Rng → Net × Rng
  shuffle : Rng → List (Batch α) → List (Batch α) × Rng
  forward : Net → List α → List (List ℚ)
  objective : List (List ℚ) → List (List ℚ) → ℚ
  optStep : ℚ → Net → Batch α → Net

/-- Configuration surface of the script (`argparse`, lines 15-79), restricted
to the fields the orchestration logic reads. -/
structure Args where
  epochs : ℕ
  lr : ℚ
  patience : ℕ
  cuda : Bool
  pth_dir : String
  seed : ℕ

/-- The per-batch loop body of `train` (lines 205-215): each batch's objective
value is computed with the current network, then the network is updated in
place; returns the per-batch losses in processing order and the final
network. -/
def trainBatches {Net α : Type} (C : Collab Net α) (lr : ℚ) :
    Net → List (Batch α) → List ℚ × Net
  | net, [] => ([], net)
  | net, b :: bs =>
    let output := C.forward net b.inputs
    let loss := C.objective output b.targets
    let net' := C.optStep lr net b
    let r := trainBatches C lr net' bs
    (loss :: r.1, r.2)

/-- The `train` function applied to one epoch's (already shuffled) batches. -/
def trainEpoch {Net α : Type} (C : Collab Net α) (lr : ℚ) (net : Net)
    (batches : List (Batch α)) : Except String (ℚ × Net) :=
  let r := trainBatches C lr net batches
  match train r.1 with
  | .error e => .error e
  | .ok tl => .ok (tl, r.2)

/-- The per-batch loop body of `validate` (lines 236-247): each batch yields
its objective value and its accuracy term. -/
def validBatches {Net α : Type} (C : Collab Net α) (net : Net)
    (batches : List (Batch α)) : List (ℚ × ℚ) :=
  batches.map (fun b =>
    let output := C.forward net b.inputs
    (C.objective output b.targets, batchAccuracy b.targets output b.inputs.length))

/-- The `validate` function applied to one epoch's (already shuffled)
batches. -/
def validateEpoch {Net α : Type} (C : Collab Net α) (net : Net)
    (batches : List (Batch α)) : Except String (ℚ × ℚ) :=
  validate (validBatches C net batches)

/-- Mutable state of the epoch loop: the network, the global RNG state, the
scheduler state, and the observational record — per-epoch
`(train_loss, valid_loss, valid_acc)` history and the checkpoint paths
written so far. -/
structure LoopState (Net : Type) where
  net : Net
  rng : Rng
  sched : SchedState
  history : List (ℚ × ℚ × ℚ)
  checkpoints : List String

/-- One iteration of the epoch loop (lines 293-300): train (shuffling the
train loader), validate (shuffling the valid loader), feed the validation
loss to the scheduler, and checkpoint unconditionally.  Filesystem effects of
`checkpoint` are modelled separately by `ensure_pth_dir`; here the store
records the written path. -/
def runEpoch {Net α : Type} (C : Collab Net α) (args : Args)
    (td vd : List (Batch α)) (epoch : ℕ) (st : LoopState Net) :
    Except String (LoopState Net) :=
  let s1 := C.shuffle st.rng td
  match trainEpoch C st.sched.lr st.net s1.1 with
  | .error e => .error e
  | .ok (tl, net') =>
    let s2 := C.shuffle s1.2 vd
    match validateEpoch C net' s2.1 with
    | .error e => .error e
    | .ok (vl, va) =>
      .ok { net := net', rng := s2.2,
            sched := schedStep args.patience st.sched vl,
            history := st.history ++ [(tl, vl, va)],
            checkpoints := st.checkpoints ++ [checkpointPath args.pth_dir epoch vl] }

/-- The epoch loop `for epoch in range(1, args.epochs + 1)` (line 293), run
from a given epoch index for a given number of remaining epochs. -/
def runEpochs {Net α : Type} (C : Collab Net α) (args : Args)
    (td vd : List (Batch α)) : ℕ → ℕ → LoopState Net → Except String (LoopState Net)
  | _, 0, st => .ok st
  | epoch, r + 1, st =>
    match runEpoch C args td vd epoch st with
    | .error e => .error e
    | .ok st' => runEpochs C args td vd (epoch + 1) r st'

/-- The `__main__` block (lines 269-300): seed the global RNG, set up the
device (which can raise before anything else is built), initialize the
network, and drive the epoch loop from epoch 1.  The optional visdom reporter
(lines 275-276, 303-320) is observational and omitted.  `g0` is the ambient
RNG state that exists before `seed(args.seed)` runs. -/
def mainRun {Net α : Type} (C : Collab Net α) (args : Args)
    (td vd : List (Batch α)) (g0 : Rng) : Except String (LoopState Net × String) :=
  let g := seed args.seed g0
  match setup_device args.cuda C.cuda_available with
  | .error e => .error e
  | .ok device =>
    let ni := C.netInit g
    let st0 : LoopState Net := ⟨ni.1, ni.2, initSched args.lr, [], []⟩
    match runEpochs C args td vd 1 args.epochs st0 with
    | .error e => .error e
    | .ok fin => .ok (fin, device)

/-- A degenerate collaborator instance (used to instantiate witnesses). -/
def trivialCollab : Collab Unit Unit :=
  ⟨false, fun g => ((), g), fun g l => (l, g), fun _ _ => [], fun _ _ => 0,
   fun _ n _ => n⟩

/-- C8: if the accelerator is requested but unavailable, the run fails at
startup with the `setup_device` error — before any epoch runs and before any
training state (loaders, network, optimizer, scheduler) is created. -/
theorem cuda_unavailable_fatal_before_training {Net α : Type} (C : Collab Net α)
    (args : Args) (td vd : List (Batch α)) (g0 : Rng)
    (hc : args.cuda = true) (ha : C.cuda_available = false) :
    mainRun C args td vd g0 = .error "No GPU found, please run without: --cuda" := by
  rw [mainRun, setup_device, hc, ha]
  rfl

/-- Witness for C8 at a concrete configuration. -/
theorem cuda_unavailable_fatal_before_training_witness :
    mainRun trivialCollab ⟨2, 1, 0, true, "checkpoints", 42⟩
      ([] : List (Batch Unit)) [] 0 =
      .error "No GPU found, please run without: --cuda" :=
  cuda_unavailable_fatal_before_training trivialCollab
    ⟨2, 1, 0, true, "checkpoints", 42⟩ [] [] 0 rfl rfl

/-- C9: determinism given the seed — two runs with the same configuration
(including the seed) and the same data produce identical outcomes, whatever
the ambient RNG states were before `seed(args.seed)` ran, and in particular
identical per-epoch loss histories. -/
theorem same_seed_same_history {Net α : Type} (C : Collab Net α) (args : Args)
    (td vd : List (Batch α)) (g0 g0' : Rng) :
    mainRun C args td vd g0 = mainRun C args td vd g0' ∧
    (mainRun C args td vd g0).map (fun r => r.1.history) =
      (mainRun C args td vd g0').map (fun r => r.1.history) :=
  ⟨rfl, rfl⟩

lemma runEpochs_record {Net α : Type} (C : Collab Net α) (args : Args)
    (td vd : List (Batch α)) :
    ∀ (r epoch : ℕ) (st st' : LoopState Net),
      runEpochs C args td vd epoch r st = .ok st' →
      ∃ hist : List (ℚ × ℚ × ℚ),
        st'.history = st.history ++ hist ∧ hist.length = r ∧
        st'.checkpoints = st.checkpoints ++
          ((List.range' epoch r).zip (hist.map (fun t => t.2.1))).map
            (fun p => checkpointPath args.pth_dir p.1 p.2) := by
  intro r
  induction r with
  | zero =>
    intro epoch st st' h
    have hst : st = st' := by
      have h0 : runEpochs C args td vd epoch 0 st = .ok st := rfl
      rw [h0] at h
      exact Except.ok.inj h
    subst hst
    exact ⟨[], by simp, rfl, by simp [List.range']⟩
  | succ r ih =>
    intro epoch st st' h
    simp only [runEpochs] at h
    split at h
    · exact absurd h (by simp)
    · rename_i st1 hre
      simp only [runEpoch] at hre
      split at hre
      · exact absurd hre (by simp)
      · rename_i tl net' htr
        split at hre
        · exact absurd hre (by simp)
        · rename_i vl va hva
          have hst1 := (Except.ok.inj hre).symm
          subst hst1
          obtain ⟨hist0, hh, hl, hc⟩ := ih (epoch + 1) _ st' h
          dsimp only at hh hc
          refine ⟨(tl, vl, va) :: hist0, ?_, by simpa using hl, ?_⟩
          · rw [hh, List.append_assoc, List.singleton_append]
          · rw [hc, List.append_assoc, List.singleton_append, List.range'_succ]
            simp [List.zip_cons_cons]

/-- C6: a successful run of `N = args.epochs` epochs invokes the checkpoint
store exactly once per epoch unconditionally: the recorded artifact paths are
exactly those embedding epoch indices `1..N` with each epoch's validation
loss, there are `N` of them, they are pairwise distinct (the epoch index in
the name strictly increases and the rendering is injective in the epoch), and
the store only ever appends — across any stretch of the loop the prior paths
remain an unchanged prefix. -/
theorem checkpoint_per_epoch_distinct {Net α : Type} (C : Collab Net α) (args : Args)
    (td vd : List (Batch α)) (g0 : Rng) (fin : LoopState Net) (dev : String)
    (h : mainRun C args td vd g0 = .ok (fin, dev)) :
    fin.history.length = args.epochs ∧
    fin.checkpoints =
      ((List.range' 1 args.epochs).zip (fin.history.map (fun t => t.2.1))).map
        (fun p => checkpointPath args.pth_dir p.1 p.2) ∧
    fin.checkpoints.length = args.epochs ∧
    fin.checkpoints.Pairwise (· ≠ ·) ∧
    (∀ (e r : ℕ) (st st' : LoopState Net),
      runEpochs C args td vd e r st = .ok st' →
      st'.checkpoints.take st.checkpoints.length = st.checkpoints) := by
  simp only [mainRun] at h
  split at h
  · exact absurd h (by simp)
  · rename_i device hdev
    split at h
    · exact absurd h (by simp)
    · rename_i fin0 hrun
      have hfin : fin = fin0 := (congrArg Prod.fst (Except.ok.inj h)).symm
      subst hfin
      obtain ⟨hist, hh, hl, hc⟩ := runEpochs_record C args td vd args.epochs 1 _ _ hrun
      simp only [List.nil_append] at hh hc
      subst hh
      have hzl : ((List.range' 1 args.epochs).zip
          (fin.history.map (fun t => t.2.1))).length = args.epochs := by
        rw [List.length_zip, List.length_range', List.length_map, hl, min_self]
      refine ⟨by rw [hl], hc, ?_, ?_, ?_⟩
      · rw [hc, List.length_map, hzl]
      · rw [hc]
        rw [List.pairwise_map]
        have hfst : ((List.range' 1 args.epochs).zip
            (fin.history.map (fun t => t.2.1))).map Prod.fst = List.range' 1 args.epochs :=
          List.map_fst_zip _ _ (by rw [List.length_range', List.length_map, hl])
        have hnd : (List.range' 1 args.epochs).Nodup := List.nodup_range' 1 args.epochs
        have hpfst : ((List.range' 1 args.epochs).zip
            (fin.history.map (fun t => t.2.1))).Pairwise (fun a b => a.1 ≠ b.1) := by
          have := hfst ▸ hnd
          exact (List.pairwise_map).mp this
        refine hpfst.imp ?_
        intro a b hab heq
        exact hab (checkpointPath_epoch_inj args.pth_dir a.1 b.1 a.2 b.2 heq)
      · intro e r st st' hrun2
        obtain ⟨_, _, _, hc2⟩ := runEpochs_record C args td vd r e st st' hrun2
        rw [hc2, List.take_left]

/-- Witness for C6: a concrete one-epoch run with the trivial collaborator;
the single checkpoint path embeds epoch `1` and the epoch's validation loss
`0`. -/
theorem checkpoint_per_epoch_distinct_witness :
    (⟨(), 0, ⟨some 0, 0, 1⟩, [((0 : ℚ), (0 : ℚ), (0 : ℚ))],
        [checkpointPath "cp" 1 0]⟩ : LoopState Unit).checkpoints.length = 1 ∧
    (⟨(), 0, ⟨some 0, 0, 1⟩, [((0 : ℚ), (0 : ℚ), (0 : ℚ))],
        [checkpointPath "cp" 1 0]⟩ : LoopState Unit).checkpoints.Pairwise (· ≠ ·) := by
  have hrun : mainRun trivialCollab ⟨1, 1, 0, false, "cp", 0⟩
      [⟨[()], [[1]]⟩] [⟨[()], [[1]]⟩] 7 =
      .ok (⟨(), 0, ⟨some 0, 0, 1⟩, [((0 : ℚ), (0 : ℚ), (0 : ℚ))],
        [checkpointPath "cp" 1 0]⟩, "cpu") := by
    norm_num [mainRun, seed, setup_device, runEpochs, runEpoch, trainEpoch, trainBatches,
      train, validateEpoch, validBatches, validate, batchAccuracy, matchIndicator,
      pydiv, round4, schedStep, isBetter, initSched, trivialCollab, Except.map]
  have h := checkpoint_per_epoch_distinct trivialCollab ⟨1, 1, 0, false, "cp", 0⟩
    [⟨[()], [[1]]⟩] [⟨[()], [[1]]⟩] 7 _ "cpu" hrun
  exact ⟨h.2.2.1, h.2.2.2.1⟩

end NeuralSEA
